import Mathlib

/-!
Verification development for the claude-remote repository.

The file embeds, as Lean definitions, the parts of the repository that the
verified properties speak about: the icon generator (gen-icons.js), the DMG
background generator (generate-dmg-bg.js), the PKG build script
(build-pkg.sh), and — modelled from the specification, since the Rust
daemon sources (app/src-tauri/src/lib.rs) are not among the staged files —
the cipher, the session key agreement, the credential-refresh protocol and
the relay daemon message state machine.
-/

namespace ClaudeRemote

/-! ## gen-icons.js -/

/-- Options record of makeIcon in gen-icons.js.  A JS option that is absent
or falsy is modelled as none; the colour strings of the actual calls are all
non-empty, so truthiness coincides with presence. -/
structure IconOptions where
  bg : Option String := none
  color : Option String := none
  text : Option String := none
  fontScale : Option ℚ := none
deriving DecidableEq

/-- The image makeIcon draws: a size x size canvas, an optional filled
rounded-rectangle background (drawn only under `if (options.bg)`), and the
centred glyph with its font size `Math.round(size * (options.fontScale || 0.65))`
and position `(size / 2, size / 2 + size * 0.02)`. -/
structure IconImage where
  width : Nat
  height : Nat
  bgFilled : Bool
  bgColor : Option String
  bgCornerRadius : ℚ
  glyphColor : String
  glyphText : String
  fontSize : ℤ
  glyphX : ℚ
  glyphY : ℚ
deriving DecidableEq

/-- JavaScript Math.round on a rational: round half away from zero on the
nonnegative inputs used here, i.e. the floor of x + 1/2. -/
def jsRound (x : ℚ) : ℤ := Int.floor (x + 1 / 2)

/-- The file makeIcon writes with fs.writeFileSync: its name (joined under
app/src-tauri/icons) and the PNG-encoded image. -/
structure WrittenFile where
  filename : String
  image : IconImage
deriving DecidableEq

/-- Shallow embedding of makeIcon(size, filename, options) from gen-icons.js:
a size x size canvas, background rounded-rectangle of corner radius
size * 0.2 filled exactly when options.bg is truthy, glyph defaulting to "C"
in black at fontScale 0.65. -/
def makeIcon (size : Nat) (filename : String) (options : IconOptions) : WrittenFile :=
  { filename := filename
    image :=
      { width := size
        height := size
        bgFilled := options.bg.isSome
        bgColor := options.bg
        bgCornerRadius := (size : ℚ) * (2 / 10)
        glyphColor := options.color.getD "#000000"
        glyphText := options.text.getD "C"
        fontSize := jsRound ((size : ℚ) * (options.fontScale.getD (65 / 100)))
        glyphX := (size : ℚ) / 2
        glyphY := (size : ℚ) / 2 + (size : ℚ) * (2 / 100) } }

/-- The tray-icon call of gen-icons.js: makeIcon(32, tray.png, color black,
text C, fontScale 0.7) — no bg option. -/
def trayIconCall : WrittenFile :=
  makeIcon 32 "tray.png" { color := some "#000000", text := some "C", fontScale := some (7 / 10) }

/-- The accent colour of the app icons in gen-icons.js. -/
def accent : String := "#e94560"

/-- All five makeIcon calls of gen-icons.js, in script order. -/
def genIconsScript : List WrittenFile :=
  [ trayIconCall
  , makeIcon 32 "32x32.png" { bg := some accent, color := some "#ffffff", text := some "C", fontScale := some (65 / 100) }
  , makeIcon 128 "128x128.png" { bg := some accent, color := some "#ffffff", text := some "C", fontScale := some (65 / 100) }
  , makeIcon 256 "128x128@2x.png" { bg := some accent, color := some "#ffffff", text := some "C", fontScale := some (65 / 100) }
  , makeIcon 1024 "icon.png" { bg := some accent, color := some "#ffffff", text := some "C", fontScale := some (65 / 100) } ]

/-! ## generate-dmg-bg.js -/

/-- The image generateBackground(scale, outputFile) draws: a canvas of
660 * scale by 400 * scale pixels with grid, arrow and caption geometry all
multiplied by scale. -/
structure DmgImage where
  width : Nat
  height : Nat
  gridSize : Nat
  lineWidth : Nat
  arrowY : Nat
  arrowStartX : Nat
  arrowEndX : Nat
deriving DecidableEq

/-- Shallow embedding of generateBackground(scale, outputFile) from
generate-dmg-bg.js: w = 660 * scale, h = 400 * scale, grid every 60 * scale,
arrow at y = 200 * scale from x = 240 * scale to x = 430 * scale. -/
def generateBackground (scale : Nat) : DmgImage :=
  { width := 660 * scale
    height := 400 * scale
    gridSize := 60 * scale
    lineWidth := 1 * scale
    arrowY := 200 * scale
    arrowStartX := 240 * scale
    arrowEndX := 430 * scale }

/-- The first call of generate-dmg-bg.js: the base dmg-background.png. -/
def dmgBackground : DmgImage := generateBackground 1

/-- The second call of generate-dmg-bg.js: dmg-background@2x.png. -/
def dmgBackground2x : DmgImage := generateBackground 2

/-! ## build-pkg.sh -/

/-- The environment build-pkg.sh runs in: whether the built bundle directory
app/src-tauri/target/release/bundle/macos/Claude Remote.app exists, and the
version string grep extracts from tauri.conf.json. -/
structure BuildEnv where
  appBundleExists : Bool
  version : String
deriving DecidableEq

/-- One observable action of build-pkg.sh, in script order: log lines go to
stdout only, every other action touches the filesystem. -/
inductive BuildAction where
  | logLine (msg : String)
  | makeTempDir (which : String)
  | makeDir (p : String)
  | copyAppBundle
  | writeComponentPlist
  | writePostinstall
  | markExecutable
  | removeExistingPkg
  | runPkgbuild
deriving DecidableEq

/-- Whether a build action changes the filesystem (everything except echo). -/
def BuildAction.touchesFilesystem : BuildAction → Bool
  | .logLine _ => false
  | _ => true

/-- Exit code and ordered action trace of one run of build-pkg.sh. -/
structure BuildResult where
  exitCode : Nat
  actions : List BuildAction
deriving DecidableEq

/-- Shallow embedding of build-pkg.sh: after computing APP_PATH and VERSION
(read-only) and echoing the banner, the script tests the bundle directory
and exits 1 before any mktemp, file write or pkgbuild when it is missing;
otherwise it stages, writes the component plist and postinstall script, and
invokes pkgbuild. -/
def buildPkg (env : BuildEnv) : BuildResult :=
  let banner := BuildAction.logLine ("Building PKG installer for Claude Remote v" ++ env.version ++ "...")
  if env.appBundleExists then
    { exitCode := 0
      actions :=
        [ banner
        , .makeTempDir "WORK_DIR"
        , .makeTempDir "SCRIPTS_DIR"
        , .makeDir "payload"
        , .copyAppBundle
        , .writeComponentPlist
        , .writePostinstall
        , .markExecutable
        , .removeExistingPkg
        , .runPkgbuild
        , .logLine ""
        , .logLine "PKG installer created"
        , .logLine "Size" ] }
  else
    { exitCode := 1
      actions := [banner, .logLine "Error: bundle not found. Run npm run tauri build first."] }

/-! ## Cipher — modelled from the spec (§4.3)

The relay daemon's Rust source (app/src-tauri/src/lib.rs) is not among the
staged repository files, so the cipher is modelled from the specification's
words: authenticated symmetric encryption with a per-call fresh nonce, where
decryption rejects any record whose tag fails to verify or whose nonce does
not match. -/

/-- Modelled from the spec: keystream byte i of the symmetric cipher under
(key, nonce).  Only determinism in (key, nonce, i) matters to the verified
properties; the concrete expansion is a placeholder. -/
def keystream (key nonce i : Nat) : Nat := (key + 131 * nonce + 257 * i) % 256

/-- Modelled from the spec: XOR of a byte sequence with the keystream from
stream position i on; its own inverse, so it both encrypts and decrypts. -/
def xorStream (key nonce : Nat) : Nat → List Nat → List Nat
  | _, [] => []
  | i, b :: bs => (b ^^^ keystream key nonce i) :: xorStream key nonce (i + 1) bs

/-- Modelled from the spec: the authentication tag over (key, nonce,
ciphertext).  The spec requires verification to reject every modification of
ciphertext, nonce or tag, so the MAC is idealised as an injective MAC. -/
def mac (key nonce : Nat) (ct : List Nat) : List Nat := (key % 251) :: nonce :: ct

/-- An encrypted record as stored in the mailbox: ciphertext and nonce kept
together, plus the authentication tag. -/
structure Sealed where
  ciphertext : List Nat
  nonce : Nat
  tag : List Nat
deriving DecidableEq

/-- Modelled from the spec: the encryption core at an explicitly given
nonce; the ciphertext, the nonce used to produce it and its tag are returned
together. -/
def encryptWith (key nonce : Nat) (plaintext : List Nat) : Sealed :=
  let ct := xorStream key nonce 0 plaintext
  { ciphertext := ct, nonce := nonce, tag := mac key nonce ct }

/-- Modelled from the spec: decrypt(ciphertext, nonce, key) verifies the
authentication tag against the stored ciphertext and nonce; a failed
verification signals DecryptError (none), otherwise the plaintext is
returned. -/
def decrypt (s : Sealed) (key : Nat) : Option (List Nat) :=
  if s.tag = mac key s.nonce s.ciphertext then some (xorStream key s.nonce 0 s.ciphertext)
  else none

/-- Flip bit j of the byte at position i (identity past the end). -/
def flipByteAt : List Nat → Nat → Nat → List Nat
  | [], _, _ => []
  | b :: bs, 0, j => (b ^^^ 2 ^ j) :: bs
  | b :: bs, i + 1, j => b :: flipByteAt bs i j

/-- Modelled from the spec: the cipher's fresh-random-nonce source.  The
random generator is idealised as a draw counter into an injective nonce
stream: the spec asserts the draws are pairwise distinct, structurally
guaranteed by fresh generation per call. -/
structure CipherState where
  nonceCtr : Nat
deriving DecidableEq

/-- Draw one fresh nonce from the source. -/
def freshNonce (st : CipherState) : Nat × CipherState :=
  (st.nonceCtr, { nonceCtr := st.nonceCtr + 1 })

/-- Modelled from the spec: encrypt(plaintext, key) generates a fresh random
nonce per call and stores ciphertext, nonce and tag together. -/
def encryptMessage (key : Nat) (st : CipherState) (plaintext : List Nat) :
    CipherState × Sealed :=
  let (n, st') := freshNonce st
  (st', encryptWith key n plaintext)

/-- A sequence of encryptions under one session key, threading the nonce
source, returning the stored records in encryption order. -/
def encryptAll (key : Nat) (st : CipherState) : List (List Nat) → CipherState × List Sealed
  | [] => (st, [])
  | pt :: pts =>
    let (st1, r) := encryptMessage key st pt
    let (st2, rs) := encryptAll key st1 pts
    (st2, r :: rs)

/-! ## Session key agreement — modelled from the spec (§4.2) -/

/-- Modelled from the spec: the fixed named curve of the Diffie-Hellman
style agreement, idealised as exponentiation modulo a fixed modulus. -/
def curveMod : Nat := 2 ^ 255 - 19

/-- Modelled from the spec: the agreement's base point. -/
def basePoint : Nat := 9

/-- Modelled from the spec: ensure_local_keypair publishes this public key
for a local private scalar. -/
def publicKey (priv : Nat) : Nat := basePoint ^ priv % curveMod

/-- Modelled from the spec: the raw Diffie-Hellman shared secret computed
from the local private scalar and the peer's public key. -/
def dhShared (priv otherPub : Nat) : Nat := otherPub ^ priv % curveMod

/-- Modelled from the spec: the key-derivation step producing the
fixed-length symmetric key from the raw shared secret. -/
def kdf (secret : Nat) : Nat := (secret * 2654435761 + 40503) % 2 ^ 256

/-- Key-agreement phase of a session: Pending until both public keys are
present, then Established. -/
inductive KeyStatus where
  | pending
  | established
deriving DecidableEq

/-- A conversation session's key material: local private scalar, the
remote public key once observed, and the derived shared key once cached. -/
structure Session where
  localPriv : Nat
  remotePub : Option Nat
  sharedKey : Option Nat
  status : KeyStatus
deriving DecidableEq

/-- Modelled from the spec: derive_shared_key(session_id) returns the cached
key of an Established session unchanged; otherwise, when the remote public
key has been observed, it computes DH plus KDF, caches the key and
transitions the session once to Established; with no remote key it stays
Pending (none). -/
def deriveSharedKey (s : Session) : Session × Option Nat :=
  match s.sharedKey with
  | some k => (s, some k)
  | none =>
    match s.remotePub with
    | none => (s, none)
    | some pub =>
      let k := kdf (dhShared s.localPriv pub)
      ({ s with sharedKey := some k, status := .established }, some k)

/-- A fresh session of the peer holding private scalar priv that has
observed the remote public key pub (both public keys known, nothing cached
yet). -/
def observedSession (priv pub : Nat) : Session :=
  { localPriv := priv, remotePub := some pub, sharedKey := none, status := .pending }

/-! ## Credential refresh on authorization denial — modelled from the spec (§4.1) -/

/-- Outcome of one outbound mailbox operation under the credential
contract. -/
inductive PublishOutcome where
  | success
  | fatalAuthError
deriving DecidableEq

/-- How many refresh() calls were made and how many times the operation was
sent during one outbound call (attempts minus one is the retries). -/
structure AuthTrace where
  refreshCalls : Nat
  attempts : Nat
deriving DecidableEq

/-- Modelled from the spec: an outbound Mailbox Client operation presents
the current access credential; on an authorization-denied response the
caller invokes refresh() once and retries exactly once; a second denial
surfaces a fatal AuthError.  `accepts` is the store's authorization check
and `refreshTok` exchanges the refresh credential for a new access
credential. -/
def publishWithAuth (accepts : Nat → Bool) (refreshTok : Nat → Nat) (tok : Nat) :
    PublishOutcome × AuthTrace :=
  if accepts tok then (.success, ⟨0, 1⟩)
  else if accepts (refreshTok tok) then (.success, ⟨1, 2⟩)
  else (.fatalAuthError, ⟨1, 2⟩)

/-! ## Relay daemon message state machine — modelled from the spec (§4.4, §4.6) -/

/-- Message lifecycle states of §4.4 (Decrypting is folded into the claim
transition, which only fires on a successful decrypt). -/
inductive Status where
  | pending
  | dispatched
  | streaming
  | done
  | failed
deriving DecidableEq

/-- A job is in flight: Dispatched or Streaming. -/
def Status.isActive : Status → Bool
  | .dispatched => true
  | .streaming => true
  | _ => false

/-- A message is terminal: Done or Failed. -/
def Status.isTerminal : Status → Bool
  | .done => true
  | .failed => true
  | _ => false

/-- One session's view of the relay daemon: messages in mailbox-observed
arrival order with their lifecycle status, and the message ids for which a
response (final text or encrypted error payload) has been published, in
publish order. -/
structure DState where
  msgs : List (Nat × Status)
  pubs : List Nat
deriving DecidableEq

/-- The status the daemon records for a message id, if it tracks it. -/
def statusOf (st : DState) (mid : Nat) : Option Status :=
  (st.msgs.find? (fun m => m.1 == mid)).map (fun m => m.2)

/-- Whether some job of the session is Dispatched or Streaming. -/
def hasActive (l : List (Nat × Status)) : Bool := l.any (fun m => m.2.isActive)

/-- Dispatch the earliest Pending request of the queue. -/
def claimFirstPending : List (Nat × Status) → List (Nat × Status)
  | [] => []
  | (m, Status.pending) :: rest => (m, Status.dispatched) :: rest
  | x :: rest => x :: claimFirstPending rest

/-- Move the in-flight job to a terminal status t. -/
def finishAs (t : Status) (l : List (Nat × Status)) : List (Nat × Status) :=
  l.map (fun m => if m.2.isActive then (m.1, t) else m)

/-- Move the dispatched job to Streaming (partial output available). -/
def streamActive (l : List (Nat × Status)) : List (Nat × Status) :=
  l.map (fun m => if m.2 = Status.dispatched then (m.1, Status.streaming) else m)

/-- Ids of the in-flight jobs (at most one in every reachable state). -/
def activeIds (l : List (Nat × Status)) : List Nat :=
  (l.filter (fun m => m.2.isActive)).map (fun m => m.1)

/-- Events of one session's coordination loop. -/
inductive Step where
  | notify (mid : Nat)
  | claim
  | stream
  | finishOk
  | finishFail
deriving DecidableEq

/-- Modelled from the spec: one transition of the daemon.  A subscription
notification of an unknown id queues it Pending in arrival order and a
notification of an already tracked id is a no-op; the scheduler claims the
earliest Pending request only while no job is Dispatched or Streaming; the
in-flight job may move to Streaming; completion or terminal failure moves it
to Done or Failed and publishes the (encrypted) response or error payload
for it. -/
def applyStep (st : DState) : Step → DState
  | .notify mid =>
    match statusOf st mid with
    | none => { st with msgs := st.msgs ++ [(mid, Status.pending)] }
    | some _ => st
  | .claim =>
    if hasActive st.msgs then st
    else { st with msgs := claimFirstPending st.msgs }
  | .stream => { st with msgs := streamActive st.msgs }
  | .finishOk =>
    { msgs := finishAs Status.done st.msgs, pubs := st.pubs ++ activeIds st.msgs }
  | .finishFail =>
    { msgs := finishAs Status.failed st.msgs, pubs := st.pubs ++ activeIds st.msgs }

/-- The daemon's empty initial session state. -/
def initState : DState := { msgs := [], pubs := [] }

/-- The state reached from the initial state by a sequence of events. -/
def runSteps (steps : List Step) : DState := steps.foldl applyStep initState

/-- Every message of the queue is Pending. -/
def allPending (l : List (Nat × Status)) : Bool := l.all (fun m => m.2 == Status.pending)

/-- The zone invariant of one session's queue: a prefix of terminal
messages, then at most one non-terminal message followed only by Pending
ones — hence at most one in-flight job and dispatch in arrival order. -/
def zoned : List (Nat × Status) → Bool
  | [] => true
  | (_, s) :: rest => if s.isTerminal then zoned rest else allPending rest

/-! ## Error taxonomy and propagation policy — modelled from the spec (§7) -/

/-- The error taxonomy of §7. -/
inductive ErrKind where
  | decryptRetryExhausted
  | spawnError
  | notConfigured
  | nonZeroExit
  | connectivity
  | authRejection
  | noWritableStorage
deriving DecidableEq

/-- Which errors are per-message: contained to that message's state machine
and published back as an encrypted error payload. -/
def ErrKind.isPerMessage : ErrKind → Bool
  | .decryptRetryExhausted => true
  | .spawnError => true
  | .notConfigured => true
  | .nonZeroExit => true
  | _ => false

/-- Whether the daemon keeps running after an error or halts. -/
inductive DaemonFate where
  | keepRunning
  | halt
deriving DecidableEq

/-- Modelled from the spec: only authentication rejection and irrecoverable
local configuration errors (no writable storage) halt the daemon; every
other error — connectivity included — leaves it running. -/
def errorPolicy : ErrKind → DaemonFate
  | .authRejection => .halt
  | .noWritableStorage => .halt
  | _ => .keepRunning

end ClaudeRemote

namespace ClaudeRemote

/-! ## Theorems for the asset generators and the build script -/

/-- C8: makeIcon(size, filename, options) writes an image exactly size
pixels wide and size pixels tall, the background rounded-rectangle is filled
iff options.bg is set, and the tray-icon call (no bg) produces an icon with
no background fill. -/
theorem makeIcon_size_and_background :
    (∀ (size : Nat) (filename : String) (options : IconOptions),
        (makeIcon size filename options).image.width = size ∧
        (makeIcon size filename options).image.height = size ∧
        ((makeIcon size filename options).image.bgFilled = true ↔ options.bg.isSome = true)) ∧
    trayIconCall.image.bgFilled = false ∧
    genIconsScript.head? = some trayIconCall := by
  refine ⟨fun size filename options => ⟨rfl, rfl, Iff.rfl⟩, ?_, rfl⟩
  simp [trayIconCall, makeIcon]

/-- C9: generateBackground(scale, outputFile) writes an image exactly
660 * scale wide and 400 * scale tall; the two calls of the script produce a
660x400 base image and a 1320x800 retina image, double the base in each
axis. -/
theorem generateBackground_dims :
    (∀ scale : Nat, 0 < scale →
        (generateBackground scale).width = 660 * scale ∧
        (generateBackground scale).height = 400 * scale) ∧
    dmgBackground.width = 660 ∧ dmgBackground.height = 400 ∧
    dmgBackground2x.width = 1320 ∧ dmgBackground2x.height = 800 ∧
    dmgBackground2x.width = 2 * dmgBackground.width ∧
    dmgBackground2x.height = 2 * dmgBackground.height := by
  exact ⟨fun scale _ => ⟨rfl, rfl⟩, rfl, rfl, rfl, rfl, rfl, rfl⟩

/-- C10: when the built application bundle directory is missing, build-pkg.sh
exits with status 1 and its action trace holds only log lines: no staging
directory is created, no plist or script file is written, and pkgbuild is
never invoked. -/
theorem buildPkg_missing_bundle (env : BuildEnv) (h : env.appBundleExists = false) :
    (buildPkg env).exitCode = 1 ∧
    (buildPkg env).actions.all (fun a => !a.touchesFilesystem) = true ∧
    (buildPkg env).actions.all (fun a => a ≠ BuildAction.runPkgbuild) = true := by
  simp [buildPkg, h, List.all, BuildAction.touchesFilesystem]

/-- Witness for C10 at the concrete environment where the bundle is absent
and the version is 0.1.0. -/
theorem buildPkg_missing_bundle_witness :
    (buildPkg ⟨false, "0.1.0"⟩).exitCode = 1 ∧
    (buildPkg ⟨false, "0.1.0"⟩).actions.all (fun a => !a.touchesFilesystem) = true ∧
    (buildPkg ⟨false, "0.1.0"⟩).actions.all (fun a => a ≠ BuildAction.runPkgbuild) = true :=
  buildPkg_missing_bundle ⟨false, "0.1.0"⟩ rfl

/-! ## Cipher lemmas -/

/-- Applying the keystream XOR twice at the same stream position is the
identity. -/
lemma xorStream_xorStream (key nonce : Nat) :
    ∀ (i : Nat) (bs : List Nat), xorStream key nonce i (xorStream key nonce i bs) = bs
  | _, [] => rfl
  | i, b :: bs => by
    simp [xorStream, Nat.xor_assoc, Nat.xor_self, Nat.xor_zero,
      xorStream_xorStream key nonce (i + 1) bs]

/-- Flipping one bit changes a natural number. -/
lemma xor_two_pow_ne (x j : Nat) : x ^^^ 2 ^ j ≠ x := by
  intro he
  have h2 : (2 : Nat) ^ j ≠ 0 := (Nat.pos_pow_of_pos j (by norm_num)).ne'
  apply h2
  have : x ^^^ (x ^^^ 2 ^ j) = x ^^^ x := by rw [he]
  rwa [Nat.xor_self, ← Nat.xor_assoc, Nat.xor_self, Nat.zero_xor] at this

/-- Flipping a bit of a byte in range changes the byte list. -/
lemma flipByteAt_ne : ∀ (l : List Nat) (i j : Nat), i < l.length → flipByteAt l i j ≠ l
  | [], i, j, hi => absurd hi (by simp)
  | b :: bs, 0, j, _ => by
    simp only [flipByteAt, ne_eq, List.cons.injEq, not_and]
    intro hb
    exact absurd hb (xor_two_pow_ne b j)
  | b :: bs, i + 1, j, hi => by
    simp only [flipByteAt, ne_eq, List.cons.injEq, true_and]
    exact flipByteAt_ne bs i j (by simpa using hi)

/-- Decrypting a freshly sealed record under the same key and nonce yields
the original plaintext. -/
lemma decrypt_encryptWith (key nonce : Nat) (pt : List Nat) :
    decrypt (encryptWith key nonce pt) key = some pt := by
  simp [decrypt, encryptWith, xorStream_xorStream]

/-- C1: for every plaintext and key (and any generated nonce), decrypt
inverts encrypt under the same key; and any single bit flipped in the
ciphertext, the nonce or the authentication tag makes decrypt return
DecryptError (none), never a plaintext. -/
theorem cipher_roundtrip_and_tamper_reject :
    (∀ (key nonce : Nat) (pt : List Nat),
        decrypt (encryptWith key nonce pt) key = some pt) ∧
    (∀ (key nonce : Nat) (pt : List Nat) (i j : Nat),
        i < (encryptWith key nonce pt).ciphertext.length →
        decrypt { encryptWith key nonce pt with
                  ciphertext := flipByteAt (encryptWith key nonce pt).ciphertext i j } key
          = none) ∧
    (∀ (key nonce : Nat) (pt : List Nat) (j : Nat),
        decrypt { encryptWith key nonce pt with nonce := nonce ^^^ 2 ^ j } key = none) ∧
    (∀ (key nonce : Nat) (pt : List Nat) (i j : Nat),
        i < (encryptWith key nonce pt).tag.length →
        decrypt { encryptWith key nonce pt with
                  tag := flipByteAt (encryptWith key nonce pt).tag i j } key = none) := by
  refine ⟨decrypt_encryptWith, ?_, ?_, ?_⟩
  · intro key nonce pt i j hi
    have hne := flipByteAt_ne (encryptWith key nonce pt).ciphertext i j hi
    simp only [encryptWith, mac] at hne ⊢
    simp [decrypt, mac]
    exact fun h => hne h.symm
  · intro key nonce pt j
    have hne := xor_two_pow_ne nonce j
    simp [decrypt, encryptWith, mac]
    exact fun h => hne h.symm
  · intro key nonce pt i j hi
    have hne := flipByteAt_ne (encryptWith key nonce pt).tag i j hi
    simp only [encryptWith, mac] at hne ⊢
    simp [decrypt, mac, hne]

/-! ## Key agreement lemmas -/

/-- The raw shared secret both peers compute is the base point raised to the
product of the two private scalars, reduced mod the curve modulus. -/
lemma dhShared_publicKey (a b : Nat) :
    dhShared a (publicKey b) = basePoint ^ (b * a) % curveMod := by
  unfold dhShared publicKey
  rw [← Nat.pow_mod, ← pow_mul]

/-- Diffie-Hellman symmetry: either peer derives the same raw secret. -/
lemma dhShared_comm (a b : Nat) : dhShared a (publicKey b) = dhShared b (publicKey a) := by
  rw [dhShared_publicKey, dhShared_publicKey, Nat.mul_comm]

/-- C2: with both public keys observed, derive_shared_key on either peer
yields bit-identical symmetric keys and moves the session once to
Established; re-deriving on a session whose derivation has succeeded is
idempotent and returns the same cached key value. -/
theorem derive_shared_key_symmetric_idempotent :
    (∀ a b : Nat,
        (deriveSharedKey (observedSession a (publicKey b))).2
          = (deriveSharedKey (observedSession b (publicKey a))).2 ∧
        (deriveSharedKey (observedSession a (publicKey b))).2
          = some (kdf (dhShared a (publicKey b))) ∧
        (deriveSharedKey (observedSession a (publicKey b))).1.status
          = KeyStatus.established) ∧
    (∀ (s s' : Session) (k : Nat),
        deriveSharedKey s = (s', some k) →
        deriveSharedKey s' = (s', some k) ∧ s'.sharedKey = some k) := by
  constructor
  · intro a b
    refine ⟨?_, rfl, rfl⟩
    simp [deriveSharedKey, observedSession, dhShared_comm a b]
  · intro s s' k h
    match hs : s.sharedKey with
    | some k0 =>
      simp [deriveSharedKey, hs] at h
      obtain ⟨h1, h2⟩ := h
      subst h1
      subst h2
      exact ⟨by simp [deriveSharedKey, hs], hs⟩
    | none =>
      match hr : s.remotePub with
      | none => simp [deriveSharedKey, hs, hr] at h
      | some pub =>
        simp [deriveSharedKey, hs, hr] at h
        obtain ⟨h1, h2⟩ := h
        subst h1
        subst h2
        exact ⟨by simp [deriveSharedKey], rfl⟩

/-- C3: an outbound operation under the credential contract never refreshes
more than once nor retries more than once; a denial triggers exactly one
refresh and exactly one retry; a second consecutive denial surfaces the
fatal AuthError; an accepted first attempt refreshes and retries nothing. -/
theorem publish_auth_retry_once :
    ∀ (accepts : Nat → Bool) (refreshTok : Nat → Nat) (tok : Nat),
      ((publishWithAuth accepts refreshTok tok).2.refreshCalls ≤ 1 ∧
        (publishWithAuth accepts refreshTok tok).2.attempts ≤ 2) ∧
      (accepts tok = false →
        (publishWithAuth accepts refreshTok tok).2.refreshCalls = 1 ∧
        (publishWithAuth accepts refreshTok tok).2.attempts = 2) ∧
      (accepts tok = false → accepts (refreshTok tok) = false →
        (publishWithAuth accepts refreshTok tok).1 = PublishOutcome.fatalAuthError) ∧
      (accepts tok = false → accepts (refreshTok tok) = true →
        (publishWithAuth accepts refreshTok tok).1 = PublishOutcome.success) ∧
      (accepts tok = true →
        (publishWithAuth accepts refreshTok tok).1 = PublishOutcome.success ∧
        (publishWithAuth accepts refreshTok tok).2.refreshCalls = 0 ∧
        (publishWithAuth accepts refreshTok tok).2.attempts = 1) := by
  intro accepts refreshTok tok
  cases h1 : accepts tok <;> cases h2 : accepts (refreshTok tok) <;>
    simp [publishWithAuth, h1, h2]

/-! ## Nonce freshness lemmas -/

/-- Unfolding one encryption of a sequence: the head record is sealed at the
current counter value and the tail continues at the next. -/
lemma encryptAll_cons (key c : Nat) (pt : List Nat) (pts : List (List Nat)) :
    encryptAll key ⟨c⟩ (pt :: pts)
      = ((encryptAll key ⟨c + 1⟩ pts).1,
          encryptWith key c pt :: (encryptAll key ⟨c + 1⟩ pts).2) := by
  rcases he : encryptAll key ⟨c + 1⟩ pts with ⟨st2, rs⟩
  simp [encryptAll, encryptMessage, freshNonce, he]

/-- One record per plaintext. -/
lemma encryptAll_length (key : Nat) :
    ∀ (pts : List (List Nat)) (c : Nat),
      ((encryptAll key ⟨c⟩ pts).2).length = pts.length
  | [], _ => rfl
  | pt :: pts, c => by
    simp [encryptAll_cons, encryptAll_length key pts (c + 1)]

/-- The stored nonces of a sequence of encryptions starting at counter c are
exactly c, c + 1, ... in order. -/
lemma encryptAll_nonces (key : Nat) :
    ∀ (pts : List (List Nat)) (c : Nat),
      ((encryptAll key ⟨c⟩ pts).2).map Sealed.nonce = List.range' c pts.length
  | [], _ => rfl
  | pt :: pts, c => by
    simp [encryptAll_cons, encryptAll_nonces key pts (c + 1), encryptWith,
      List.range'_succ]

/-- Every stored record decrypts, under the session key and its own stored
nonce, back to the plaintext it was produced from. -/
lemma encryptAll_get (key : Nat) :
    ∀ (pts : List (List Nat)) (c i : Nat) (hi : i < pts.length)
      (hr : i < ((encryptAll key ⟨c⟩ pts).2).length),
      decrypt (((encryptAll key ⟨c⟩ pts).2).get ⟨i, hr⟩) key = some (pts.get ⟨i, hi⟩)
  | pt :: pts, c, 0, _, hr => by
    simp [encryptAll_cons, decrypt_encryptWith]
  | pt :: pts, c, i + 1, hi, hr => by
    have hr' : i < ((encryptAll key ⟨c + 1⟩ pts).2).length := by
      have := hr
      rw [encryptAll_cons] at this
      simpa using this
    have := encryptAll_get key pts (c + 1) i (by simpa using hi) hr'
    simpa [encryptAll_cons] using this

/-- C7: a run of encryptions under one session key draws a fresh nonce per
call — the stored nonces are pairwise distinct — and each stored record
carries its ciphertext together with the nonce used to produce it (the
record decrypts with its own stored nonce back to its plaintext). -/
theorem encrypt_nonces_fresh_and_stored :
    ∀ (key : Nat) (pts : List (List Nat)),
      (((encryptAll key ⟨0⟩ pts).2).map Sealed.nonce).Nodup ∧
      ((encryptAll key ⟨0⟩ pts).2).length = pts.length ∧
      (∀ (i : Nat) (hi : i < pts.length) (hr : i < ((encryptAll key ⟨0⟩ pts).2).length),
          decrypt (((encryptAll key ⟨0⟩ pts).2).get ⟨i, hr⟩) key = some (pts.get ⟨i, hi⟩)) := by
  intro key pts
  refine ⟨?_, encryptAll_length key pts 0, fun i hi hr => encryptAll_get key pts 0 i hi hr⟩
  rw [encryptAll_nonces key pts 0]
  exact List.nodup_range' 0 pts.length 1 (by norm_num)

/-! ## Relay daemon state machine lemmas -/

/-- Unpack allPending into pointwise facts. -/
lemma allPending_mem {l : List (Nat × Status)} (h : allPending l = true) :
    ∀ m ∈ l, m.2 = Status.pending := by
  intro m hm
  simpa using List.all_eq_true.mp h m hm

/-- An all-Pending queue satisfies the zone invariant. -/
lemma allPending_zoned : ∀ {l : List (Nat × Status)}, allPending l = true → zoned l = true
  | [], _ => rfl
  | (m, s) :: rest, h => by
    have hs : s = Status.pending := by
      simpa using (List.all_eq_true.mp h (m, s) (by simp))
    have hr : allPending rest = true := by
      simp only [allPending, List.all_cons, Bool.and_eq_true] at h
      exact h.2
    subst hs
    simpa [zoned, Status.isTerminal] using hr

/-- No job of an all-Pending queue is in flight. -/
lemma allPending_filter_active {l : List (Nat × Status)} (h : allPending l = true) :
    l.filter (fun m => m.2.isActive) = [] := by
  rw [List.filter_eq_nil_iff]
  intro m hm
  rw [allPending_mem h m hm]
  simp [Status.isActive]

/-- A map that fixes Pending entries fixes an all-Pending queue. -/
lemma map_id_of_allPending {f : Nat × Status → Nat × Status}
    (hf : ∀ m : Nat × Status, m.2 = Status.pending → f m = m) :
    ∀ {l : List (Nat × Status)}, allPending l = true → l.map f = l
  | [], _ => rfl
  | m :: rest, h => by
    have hm : m.2 = Status.pending := allPending_mem h m (by simp)
    have hr : allPending rest = true := by
      simp only [allPending, List.all_cons, Bool.and_eq_true] at h
      exact h.2
    simp [hf m hm, map_id_of_allPending hf hr]

/-- Tail of the zone invariant. -/
lemma zoned_rest {m : Nat × Status} {rest : List (Nat × Status)}
    (h : zoned (m :: rest) = true) : zoned rest = true := by
  rcases m with ⟨i, s⟩
  by_cases ht : s.isTerminal = true
  · simpa [zoned, ht] using h
  · have hb : s.isTerminal = false := by simpa using ht
    exact allPending_zoned (by simpa [zoned, hb] using h)

/-- Observing a new message id appends it Pending and keeps the zone
invariant. -/
lemma zoned_append_pending (mid : Nat) :
    ∀ {l : List (Nat × Status)}, zoned l = true →
      zoned (l ++ [(mid, Status.pending)]) = true
  | [], _ => by simp [zoned, allPending, Status.isTerminal]
  | (m, s) :: rest, h => by
    by_cases ht : s.isTerminal = true
    · have hr : zoned rest = true := by simpa [zoned, ht] using h
      simpa [zoned, ht] using zoned_append_pending mid hr
    · have hb : s.isTerminal = false := by simpa using ht
      have hr : allPending rest = true := by simpa [zoned, hb] using h
      have : allPending (rest ++ [(mid, Status.pending)]) = true := by
        simp [allPending, List.all_append] at hr ⊢
        exact hr
      simpa [zoned, hb] using this

/-- Claiming the earliest Pending request of a queue with no in-flight job
keeps the zone invariant. -/
lemma zoned_claimFirstPending :
    ∀ {l : List (Nat × Status)}, zoned l = true → hasActive l = false →
      zoned (claimFirstPending l) = true
  | [], _, _ => rfl
  | (m, s) :: rest, h, ha => by
    have harest : hasActive rest = false := by
      simp only [hasActive, List.any_cons, Bool.or_eq_false_iff] at ha
      exact ha.2
    have hahead : s.isActive = false := by
      simp only [hasActive, List.any_cons, Bool.or_eq_false_iff] at ha
      exact ha.1
    cases s with
    | pending =>
      have hr : allPending rest = true := by
        simpa [zoned, Status.isTerminal] using h
      simpa [claimFirstPending, zoned, Status.isTerminal] using hr
    | dispatched => simp [Status.isActive] at hahead
    | streaming => simp [Status.isActive] at hahead
    | done =>
      have hr : zoned rest = true := by simpa [zoned, Status.isTerminal] using h
      simpa [claimFirstPending, zoned, Status.isTerminal] using
        zoned_claimFirstPending hr harest
    | failed =>
      have hr : zoned rest = true := by simpa [zoned, Status.isTerminal] using h
      simpa [claimFirstPending, zoned, Status.isTerminal] using
        zoned_claimFirstPending hr harest

/-- Moving the dispatched job to Streaming keeps the zone invariant. -/
lemma zoned_streamActive :
    ∀ {l : List (Nat × Status)}, zoned l = true → zoned (streamActive l) = true
  | [], _ => rfl
  | (m, s) :: rest, h => by
    have hfix : ∀ x : Nat × Status, x.2 = Status.pending →
        (if x.2 = Status.dispatched then (x.1, Status.streaming) else x) = x := by
      intro x hx
      simp [hx]
    cases s with
    | pending =>
      have hr : allPending rest = true := by
        simpa [zoned, Status.isTerminal] using h
      have heq : streamActive rest = rest := map_id_of_allPending hfix hr
      simpa [streamActive, zoned, Status.isTerminal, List.map_cons] using
        (by rw [show List.map _ rest = streamActive rest from rfl, heq]; exact hr)
    | dispatched =>
      have hr : allPending rest = true := by
        simpa [zoned, Status.isTerminal] using h
      have heq : streamActive rest = rest := map_id_of_allPending hfix hr
      simpa [streamActive, zoned, Status.isTerminal, List.map_cons] using
        (by rw [show List.map _ rest = streamActive rest from rfl, heq]; exact hr)
    | streaming =>
      have hr : allPending rest = true := by
        simpa [zoned, Status.isTerminal] using h
      have heq : streamActive rest = rest := map_id_of_allPending hfix hr
      simpa [streamActive, zoned, Status.isTerminal, List.map_cons] using
        (by rw [show List.map _ rest = streamActive rest from rfl, heq]; exact hr)
    | done =>
      have hr : zoned rest = true := by simpa [zoned, Status.isTerminal] using h
      simpa [streamActive, zoned, Status.isTerminal, List.map_cons] using
        zoned_streamActive hr
    | failed =>
      have hr : zoned rest = true := by simpa [zoned, Status.isTerminal] using h
      simpa [streamActive, zoned, Status.isTerminal, List.map_cons] using
        zoned_streamActive hr

/-- A map over an all-Pending queue that fixes Pending entries: finishing
touches nothing. -/
lemma finishAs_allPending (t : Status) {l : List (Nat × Status)}
    (h : allPending l = true) : finishAs t l = l :=
  map_id_of_allPending (fun x hx => by simp [hx, Status.isActive]) h

/-- Streaming touches nothing in an all-Pending queue. -/
lemma streamActive_allPending {l : List (Nat × Status)}
    (h : allPending l = true) : streamActive l = l :=
  map_id_of_allPending (fun x hx => by simp [hx]) h

/-- Finishing the in-flight job with a terminal status keeps the zone
invariant. -/
lemma zoned_finishAs {t : Status} (ht : t.isTerminal = true) :
    ∀ {l : List (Nat × Status)}, zoned l = true → zoned (finishAs t l) = true
  | [], _ => rfl
  | (_, Status.pending) :: rest, h => by
    have hr : allPending rest = true := by
      simpa [zoned, Status.isTerminal] using h
    show allPending (finishAs t rest) = true
    rw [finishAs_allPending t hr]
    exact hr
  | (_, Status.dispatched) :: rest, h => by
    have hr : allPending rest = true := by
      simpa [zoned, Status.isTerminal] using h
    show (if t.isTerminal = true then zoned (finishAs t rest)
          else allPending (finishAs t rest)) = true
    rw [ht, if_pos rfl, finishAs_allPending t hr]
    exact allPending_zoned hr
  | (_, Status.streaming) :: rest, h => by
    have hr : allPending rest = true := by
      simpa [zoned, Status.isTerminal] using h
    show (if t.isTerminal = true then zoned (finishAs t rest)
          else allPending (finishAs t rest)) = true
    rw [ht, if_pos rfl, finishAs_allPending t hr]
    exact allPending_zoned hr
  | (_, Status.done) :: rest, h => by
    have hr : zoned rest = true := by simpa [zoned, Status.isTerminal] using h
    show zoned (finishAs t rest) = true
    exact zoned_finishAs ht hr
  | (_, Status.failed) :: rest, h => by
    have hr : zoned rest = true := by simpa [zoned, Status.isTerminal] using h
    show zoned (finishAs t rest) = true
    exact zoned_finishAs ht hr

/-- Every daemon transition preserves the zone invariant. -/
lemma zoned_applyStep {st : DState} (h : zoned st.msgs = true) (e : Step) :
    zoned (applyStep st e).msgs = true := by
  cases e with
  | notify mid =>
    cases hs : statusOf st mid with
    | none => simpa [applyStep, hs] using zoned_append_pending mid h
    | some s => simpa [applyStep, hs] using h
  | claim =>
    cases ha : hasActive st.msgs with
    | false => simpa [applyStep, ha] using zoned_claimFirstPending h ha
    | true => simpa [applyStep, ha] using h
  | stream => simpa [applyStep] using zoned_streamActive h
  | finishOk => simpa [applyStep] using zoned_finishAs (t := Status.done) rfl h
  | finishFail => simpa [applyStep] using zoned_finishAs (t := Status.failed) rfl h

/-- The zone invariant holds along any event fold. -/
lemma zoned_foldl :
    ∀ (steps : List Step) (st : DState), zoned st.msgs = true →
      zoned (steps.foldl applyStep st).msgs = true
  | [], _, h => h
  | e :: steps, _, h => zoned_foldl steps _ (zoned_applyStep h e)

/-- The zone invariant holds in every reachable daemon state. -/
lemma zoned_runSteps (steps : List Step) : zoned (runSteps steps).msgs = true :=
  zoned_foldl steps initState rfl

/-- The zone invariant bounds the in-flight jobs by one. -/
lemma zoned_count_active_le_one :
    ∀ {l : List (Nat × Status)}, zoned l = true →
      (l.filter (fun m => m.2.isActive)).length ≤ 1
  | [], _ => by simp
  | (m, Status.pending) :: rest, h => by
    have hr : allPending rest = true := by
      simpa [zoned, Status.isTerminal] using h
    show (rest.filter (fun x => x.2.isActive)).length ≤ 1
    rw [allPending_filter_active hr]
    simp
  | (m, Status.dispatched) :: rest, h => by
    have hr : allPending rest = true := by
      simpa [zoned, Status.isTerminal] using h
    show ((m, Status.dispatched) :: rest.filter (fun x => x.2.isActive)).length ≤ 1
    rw [allPending_filter_active hr]
    simp
  | (m, Status.streaming) :: rest, h => by
    have hr : allPending rest = true := by
      simpa [zoned, Status.isTerminal] using h
    show ((m, Status.streaming) :: rest.filter (fun x => x.2.isActive)).length ≤ 1
    rw [allPending_filter_active hr]
    simp
  | (_, Status.done) :: rest, h => by
    have hr : zoned rest = true := by simpa [zoned, Status.isTerminal] using h
    show (rest.filter (fun x => x.2.isActive)).length ≤ 1
    exact zoned_count_active_le_one hr
  | (_, Status.failed) :: rest, h => by
    have hr : zoned rest = true := by simpa [zoned, Status.isTerminal] using h
    show (rest.filter (fun x => x.2.isActive)).length ≤ 1
    exact zoned_count_active_le_one hr

/-- Under the zone invariant, everything before an in-flight job is
terminal: a later request is never dispatched while an earlier one is not
yet Done or Failed. -/
lemma zoned_ordered :
    ∀ {l : List (Nat × Status)}, zoned l = true →
      ∀ (i j : Nat) (hi : i < l.length) (hj : j < l.length), i < j →
        (l.get ⟨j, hj⟩).2.isActive = true → (l.get ⟨i, hi⟩).2.isTerminal = true
  | [], _, i, _, hi, _, _, _ => absurd hi (by simp)
  | (m, s) :: rest, h, 0, j, hi, hj, hij, hact => by
    match j, hj, hij with
    | j' + 1, hj, _ =>
      by_cases ht : s.isTerminal = true
      · simpa using ht
      · have hb : s.isTerminal = false := by simpa using ht
        have hp : allPending rest = true := by simpa [zoned, hb] using h
        have hj' : j' < rest.length := by simpa using hj
        have hmem : rest.get ⟨j', hj'⟩ ∈ rest := List.get_mem rest j' hj'
        have hpend : (rest.get ⟨j', hj'⟩).2 = Status.pending :=
          allPending_mem hp _ hmem
        rw [List.get_cons_succ] at hact
        rw [hpend] at hact
        simp [Status.isActive] at hact
  | (m, s) :: rest, h, i' + 1, j, hi, hj, hij, hact => by
    match j, hj, hij with
    | j' + 1, hj, hij =>
      have hr : zoned rest = true := zoned_rest h
      have hi' : i' < rest.length := by simpa using hi
      have hj' : j' < rest.length := by simpa using hj
      rw [List.get_cons_succ] at hact ⊢
      exact zoned_ordered hr i' j' hi' hj' (by omega) hact

/-- Folding a step the state is a fixed point of changes nothing, however
often it is repeated. -/
lemma foldl_replicate_fixed {st : DState} {e : Step} (h : applyStep st e = st) :
    ∀ n : Nat, List.foldl applyStep st (List.replicate n e) = st
  | 0 => rfl
  | n + 1 => by
    rw [List.replicate_succ, List.foldl_cons, h]
    exact foldl_replicate_fixed h n

/-- C4: a duplicate notification for a message id already Done or Failed
leaves the daemon state unchanged (repeated any number of times), and in the
scenario notify-claim-complete followed by n duplicate re-deliveries exactly
one response for the message is ever published. -/
theorem duplicate_notification_idempotent :
    (∀ (st : DState) (mid : Nat) (n : Nat),
        (statusOf st mid = some Status.done ∨ statusOf st mid = some Status.failed) →
        applyStep st (Step.notify mid) = st ∧
        (fun t => applyStep t (Step.notify mid))^[n] st = st ∧
        ((fun t => applyStep t (Step.notify mid))^[n] st).pubs = st.pubs) ∧
    (∀ (mid : Nat) (n : Nat),
        (runSteps ([Step.notify mid, Step.claim, Step.finishOk] ++
            List.replicate n (Step.notify mid))).pubs.count mid = 1) := by
  constructor
  · intro st mid n h
    have h1 : applyStep st (Step.notify mid) = st := by
      rcases h with h | h <;> simp [applyStep, h]
    have h2 : (fun t => applyStep t (Step.notify mid))^[n] st = st :=
      Function.iterate_fixed h1 n
    exact ⟨h1, h2, by rw [h2]⟩
  · intro mid n
    have hpre : runSteps [Step.notify mid, Step.claim, Step.finishOk]
        = ⟨[(mid, Status.done)], [mid]⟩ := by
      simp [runSteps, List.foldl_cons, List.foldl_nil, applyStep, statusOf,
        initState, hasActive, claimFirstPending, finishAs, activeIds, Status.isActive]
    have hfix : applyStep (⟨[(mid, Status.done)], [mid]⟩ : DState) (Step.notify mid)
        = ⟨[(mid, Status.done)], [mid]⟩ := by
      simp [applyStep, statusOf]
    rw [runSteps, List.foldl_append]
    rw [show List.foldl applyStep initState [Step.notify mid, Step.claim, Step.finishOk]
          = runSteps [Step.notify mid, Step.claim, Step.finishOk] from rfl]
    rw [hpre, foldl_replicate_fixed hfix n]
    simp

/-- C5: every reachable daemon state has at most one job Dispatched or
Streaming per session; a later request is in flight only when every earlier
request of the session is already Done or Failed — so the second of two
Pending requests is never dispatched before the first terminates and
dispatch follows mailbox-observed arrival order — and while a job is in
flight the claim transition refuses to dispatch another request. -/
theorem session_at_most_one_job_in_order :
    ∀ steps : List Step,
      ((runSteps steps).msgs.filter (fun m => m.2.isActive)).length ≤ 1 ∧
      (∀ (i j : Nat) (hi : i < (runSteps steps).msgs.length)
          (hj : j < (runSteps steps).msgs.length), i < j →
          ((runSteps steps).msgs.get ⟨j, hj⟩).2.isActive = true →
          ((runSteps steps).msgs.get ⟨i, hi⟩).2.isTerminal = true) ∧
      (∀ st : DState, hasActive st.msgs = true → applyStep st Step.claim = st) := by
  intro steps
  refine ⟨zoned_count_active_le_one (zoned_runSteps steps),
    fun i j hi hj hij hact => zoned_ordered (zoned_runSteps steps) i j hi hj hij hact,
    fun st ha => by simp [applyStep, ha]⟩

/-! ## Every terminal message has a published response -/

/-- The id of an in-flight entry is among the published ids of a finish
transition. -/
lemma mem_activeIds {l : List (Nat × Status)} {y : Nat × Status}
    (hy : y ∈ l) (ha : y.2.isActive = true) : y.1 ∈ activeIds l :=
  List.mem_map_of_mem _ (List.mem_filter.mpr ⟨hy, ha⟩)

/-- Claiming produces entries of the original queue or a freshly dispatched
one. -/
lemma mem_claimFirstPending :
    ∀ {l : List (Nat × Status)} {x : Nat × Status},
      x ∈ claimFirstPending l → x ∈ l ∨ x.2 = Status.dispatched
  | [], x, hx => by simp [claimFirstPending] at hx
  | (m, Status.pending) :: rest, x, hx => by
    rcases List.mem_cons.mp hx with h | h
    · right
      rw [h]
    · exact Or.inl (List.mem_cons_of_mem _ h)
  | (m, Status.dispatched) :: rest, x, hx => by
    rcases List.mem_cons.mp hx with h | h
    · exact Or.inl (h ▸ List.mem_cons_self _ _)
    · rcases mem_claimFirstPending h with h' | h'
      · exact Or.inl (List.mem_cons_of_mem _ h')
      · exact Or.inr h'
  | (m, Status.streaming) :: rest, x, hx => by
    rcases List.mem_cons.mp hx with h | h
    · exact Or.inl (h ▸ List.mem_cons_self _ _)
    · rcases mem_claimFirstPending h with h' | h'
      · exact Or.inl (List.mem_cons_of_mem _ h')
      · exact Or.inr h'
  | (m, Status.done) :: rest, x, hx => by
    rcases List.mem_cons.mp hx with h | h
    · exact Or.inl (h ▸ List.mem_cons_self _ _)
    · rcases mem_claimFirstPending h with h' | h'
      · exact Or.inl (List.mem_cons_of_mem _ h')
      · exact Or.inr h'
  | (m, Status.failed) :: rest, x, hx => by
    rcases List.mem_cons.mp hx with h | h
    · exact Or.inl (h ▸ List.mem_cons_self _ _)
    · rcases mem_claimFirstPending h with h' | h'
      · exact Or.inl (List.mem_cons_of_mem _ h')
      · exact Or.inr h'

/-- A finish transition keeps every terminal entry's response published:
old terminal entries were published before, newly terminal ones are the
in-flight entries whose ids are appended to the publish log. -/
lemma published_finish {st : DState} (t : Status)
    (h : ∀ m ∈ st.msgs, m.2.isTerminal = true → m.1 ∈ st.pubs) :
    ∀ m ∈ finishAs t st.msgs, m.2.isTerminal = true →
      m.1 ∈ st.pubs ++ activeIds st.msgs := by
  intro m hm ht
  rcases List.mem_map.mp hm with ⟨y, hy, hfy⟩
  by_cases hac : y.2.isActive = true
  · have h1 : m.1 = y.1 := by
      rw [← hfy]
      simp [hac]
    rw [h1]
    exact List.mem_append_right _ (mem_activeIds hy hac)
  · have hb : y.2.isActive = false := by simpa using hac
    have hmy : m = y := by
      rw [← hfy]
      simp [hb]
    rw [hmy] at ht ⊢
    exact List.mem_append_left _ (h y hy ht)

/-- Every daemon transition preserves the property that every terminal
message has a published response. -/
lemma published_applyStep {st : DState}
    (h : ∀ m ∈ st.msgs, m.2.isTerminal = true → m.1 ∈ st.pubs) (e : Step) :
    ∀ m ∈ (applyStep st e).msgs, m.2.isTerminal = true →
      m.1 ∈ (applyStep st e).pubs := by
  cases e with
  | notify mid =>
    cases hs : statusOf st mid with
    | some s => simpa [applyStep, hs] using h
    | none =>
      intro m hm ht
      simp only [applyStep, hs] at hm ⊢
      rcases List.mem_append.mp hm with hm | hm
      · exact h m hm ht
      · have : m = (mid, Status.pending) := by simpa using hm
        rw [this] at ht
        simp [Status.isTerminal] at ht
  | claim =>
    cases ha : hasActive st.msgs with
    | true => simpa [applyStep, ha] using h
    | false =>
      intro m hm ht
      simp only [applyStep, ha, Bool.false_eq_true, if_false] at hm ⊢
      rcases mem_claimFirstPending hm with hm' | hm'
      · exact h m hm' ht
      · rw [hm'] at ht
        simp [Status.isTerminal] at ht
  | stream =>
    intro m hm ht
    simp only [applyStep] at hm ⊢
    rcases List.mem_map.mp hm with ⟨y, hy, hfy⟩
    by_cases hd : y.2 = Status.dispatched
    · have : m = (y.1, Status.streaming) := by
        rw [← hfy]
        simp [hd]
      rw [this] at ht
      simp [Status.isTerminal] at ht
    · have hmy : m = y := by
        rw [← hfy]
        simp [hd]
      rw [hmy] at ht ⊢
      exact h y hy ht
  | finishOk =>
    intro m hm ht
    exact published_finish Status.done h m hm ht
  | finishFail =>
    intro m hm ht
    exact published_finish Status.failed h m hm ht

/-- Along any event fold, every terminal message has a published
response. -/
lemma published_foldl :
    ∀ (steps : List Step) (st : DState),
      (∀ m ∈ st.msgs, m.2.isTerminal = true → m.1 ∈ st.pubs) →
      ∀ m ∈ (steps.foldl applyStep st).msgs, m.2.isTerminal = true →
        m.1 ∈ (steps.foldl applyStep st).pubs
  | [], _, h => h
  | e :: steps, _, h => published_foldl steps _ (published_applyStep h e)

/-- In every reachable daemon state, every terminal message has a published
response. -/
lemma published_runSteps (steps : List Step) :
    ∀ m ∈ (runSteps steps).msgs, m.2.isTerminal = true →
      m.1 ∈ (runSteps steps).pubs :=
  published_foldl steps initState (by intro m hm; simp [initState] at hm)

/-- C6: in every reachable daemon state every message that reached Done or
Failed — whatever the cause — has a published (encrypted) response, so no
message is silently dropped; per-message errors of the taxonomy never halt
the daemon, and only authentication rejection and irrecoverable local
configuration errors do. -/
theorem terminal_failure_always_published :
    (∀ (steps : List Step) (mid : Nat) (s : Status),
        statusOf (runSteps steps) mid = some s → s.isTerminal = true →
        mid ∈ (runSteps steps).pubs) ∧
    (∀ e : ErrKind, e.isPerMessage = true → errorPolicy e = DaemonFate.keepRunning) ∧
    errorPolicy ErrKind.authRejection = DaemonFate.halt ∧
    errorPolicy ErrKind.noWritableStorage = DaemonFate.halt ∧
    errorPolicy ErrKind.connectivity = DaemonFate.keepRunning := by
  refine ⟨?_, ?_, rfl, rfl, rfl⟩
  · intro steps mid s h ht
    have hx : ∃ pair, (runSteps steps).msgs.find? (fun m => m.1 == mid) = some pair ∧
        pair.2 = s := by
      simpa [statusOf, Option.map_eq_some'] using h
    obtain ⟨pair, hfind, hs⟩ := hx
    have hmem : pair ∈ (runSteps steps).msgs := List.mem_of_find?_eq_some hfind
    have hpm : pair.1 = mid := by simpa using List.find?_some hfind
    have := published_runSteps steps pair hmem (by rw [hs]; exact ht)
    rwa [hpm] at this
  · intro e he
    cases e <;> first
      | rfl
      | simp [ErrKind.isPerMessage] at he

end ClaudeRemote
